import Mathlib

/-!
Verification of `src/public/words/filter_words.py` (OrchardOfLetters).

The script has two functions: `load_blocklist`, which reads a blocklist
file into a set of lowercase single words, and `filter_wordlist`, which
streams an input wordlist line by line, writing every word whose
lowercase form is not in the blocklist to an output file and recording
the removed words.

Strings are embedded as `List Char`.  File contents are a single
`List Char`; Python's text-mode line iteration is modelled by
`splitLines`, which yields each line with its terminating newline kept
(as Python does), and a final newline-less fragment as-is.
-/

namespace OrchardOfLetters

/-- The ASCII whitespace characters removed by Python's `str.strip()`
with no arguments: space, tab, newline, carriage return, vertical tab,
form feed. -/
def pyIsSpace (c : Char) : Bool :=
  c = ' ' || c = '\t' || c = '\n' || c = '\r' || c = Char.ofNat 11 || c = Char.ofNat 12

/-- Remove leading whitespace, as Python's `str.lstrip()`. -/
def lstrip (s : List Char) : List Char := s.dropWhile pyIsSpace

/-- Remove trailing whitespace, as Python's `str.rstrip()`. -/
def rstrip (s : List Char) : List Char := (s.reverse.dropWhile pyIsSpace).reverse

/-- Python's `str.strip()`: remove leading and trailing whitespace. -/
def pyStrip (s : List Char) : List Char := lstrip (rstrip s)

/-- Python's `str.lower()`, restricted to the ASCII case mapping (the
repository's data is ASCII). -/
def pyLower (s : List Char) : List Char := s.map Char.toLower

/-- Split file content into lines the way Python iterates a text file:
every line keeps its terminating newline, a final fragment without a
newline is yielded as-is, and empty content yields no lines. -/
def splitLines : List Char → List (List Char)
  | [] => []
  | c :: rest =>
    if c = '\n' then ['\n'] :: splitLines rest
    else
      match splitLines rest with
      | [] => [[c]]
      | l :: ls => (c :: l) :: ls

/-- Drop the terminating newline of a line, when present. -/
def chomp (l : List Char) : List Char :=
  if l.getLast? = some '\n' then l.dropLast else l

/-- The lines of a file with their newline terminators removed: the
sequence of lines as usually displayed or compared. -/
def fileLines (s : List Char) : List (List Char) := (splitLines s).map chomp

/-- Embedding of `load_blocklist` (filter_words.py, lines 8-20): for each
line of the blocklist file, strip and lowercase it; keep it only when the
result is nonempty and contains no space character.  The Python `set` is
modelled by a list that is used only through membership. -/
def load_blocklist (content : List Char) : List (List Char) :=
  (splitLines content).filterMap (fun line =>
    let word := pyLower (pyStrip line)
    if word ≠ [] ∧ ¬ ' ' ∈ word then some word else none)

/-- The state threaded through the loop of `filter_wordlist`: the bytes
written to the output file so far, the two counters, and the removed
words in order of appearance. -/
structure FilterResult where
  out : List Char
  kept : Nat
  removed : Nat
  removedWords : List (List Char)
deriving Repr, DecidableEq

/-- One iteration of the loop in `filter_wordlist` (filter_words.py,
lines 30-37): `word = line.strip()`; if `word.lower()` is not in the
blocklist, write `word + '\n'` and bump the kept counter, otherwise bump
the removed counter and append `word` to the removed words. -/
def filterStep (blocked : List (List Char)) (st : FilterResult) (line : List Char) :
    FilterResult :=
  let word := pyStrip line
  if pyLower word ∉ blocked then
    { st with out := st.out ++ (word ++ ['\n']), kept := st.kept + 1 }
  else
    { st with removed := st.removed + 1, removedWords := st.removedWords ++ [word] }

/-- Embedding of `filter_wordlist` (filter_words.py, lines 22-39): fold
the loop body over the input file's lines, starting from zero counters
and an empty (truncated) output file. -/
def filter_wordlist (content : List Char) (blocked : List (List Char)) : FilterResult :=
  (splitLines content).foldl (filterStep blocked) ⟨[], 0, 0, []⟩

/-- The boolean keep-test of the loop: the lowercased word is not in the
blocklist. -/
def keep (blocked : List (List Char)) (w : List Char) : Bool :=
  decide (pyLower w ∉ blocked)

/-- The stripped input words that pass the keep-test, in input order. -/
def keptWords (blocked : List (List Char)) (lines : List (List Char)) : List (List Char) :=
  (lines.map pyStrip).filter (keep blocked)

/-- The stripped input words that fail the keep-test, in input order. -/
def removedWordsOf (blocked : List (List Char)) (lines : List (List Char)) :
    List (List Char) :=
  (lines.map pyStrip).filter (fun w => ! keep blocked w)

/-- The content of the output file: each kept word followed by a
newline, concatenated in order. -/
def outOf (blocked : List (List Char)) (lines : List (List Char)) : List Char :=
  ((keptWords blocked lines).map (fun w => w ++ ['\n'])).flatten

/-! ### Characterization of the filtering loop -/

/-- Folding the loop body over a list of lines appends, to the starting
state, exactly the kept words (each with a newline) to the output, the
removed words to the removed-words record, and the two lengths to the
counters. -/
theorem foldl_filterStep (blocked : List (List Char)) (lines : List (List Char))
    (st : FilterResult) :
    lines.foldl (filterStep blocked) st =
      ⟨st.out ++ outOf blocked lines,
       st.kept + (keptWords blocked lines).length,
       st.removed + (removedWordsOf blocked lines).length,
       st.removedWords ++ removedWordsOf blocked lines⟩ := by
  induction lines generalizing st with
  | nil => simp [outOf, keptWords, removedWordsOf]
  | cons l ls ih =>
    by_cases h : pyLower (pyStrip l) ∈ blocked
    · simp [filterStep, h, ih, outOf, keptWords, removedWordsOf, keep,
        FilterResult.mk.injEq, List.filter_cons]
      omega
    · simp [filterStep, h, ih, outOf, keptWords, removedWordsOf, keep,
        FilterResult.mk.injEq, List.filter_cons]
      omega

/-- `filter_wordlist` computes the kept words' concatenation, the two
counts, and the removed words of the input's lines. -/
theorem filter_wordlist_eq (content : List Char) (blocked : List (List Char)) :
    filter_wordlist content blocked =
      ⟨outOf blocked (splitLines content),
       (keptWords blocked (splitLines content)).length,
       (removedWordsOf blocked (splitLines content)).length,
       removedWordsOf blocked (splitLines content)⟩ := by
  simp [filter_wordlist, foldl_filterStep]

/-! ### Structure of `splitLines` and of stripped words -/

/-- Every line produced by `splitLines` is a newline-free body, either
terminated by a single newline or (for the final fragment) nonempty and
bare. -/
theorem splitLines_cons_nl (rest : List Char) :
    splitLines ('\n' :: rest) = ['\n'] :: splitLines rest := rfl

/-- Unfolding `splitLines` on a non-newline head character. -/
theorem splitLines_cons_ne (c : Char) (rest : List Char) (hc : c ≠ '\n') :
    splitLines (c :: rest) =
      match splitLines rest with
      | [] => [[c]]
      | l :: ls => (c :: l) :: ls := by
  simp [splitLines, hc]

theorem splitLines_shape (cs : List Char) :
    ∀ l ∈ splitLines cs, ∃ b, ¬ '\n' ∈ b ∧ (l = b ++ ['\n'] ∨ (l = b ∧ b ≠ [])) := by
  induction cs with
  | nil => simp [splitLines]
  | cons c rest ih =>
    by_cases hc : c = '\n'
    · subst hc
      intro l hl
      rw [splitLines_cons_nl, List.mem_cons] at hl
      rcases hl with rfl | hl
      · exact ⟨[], by simp⟩
      · exact ih l hl
    · intro l hl
      have hnl : ∀ b : List Char, ¬ '\n' ∈ b → ¬ '\n' ∈ c :: b := by
        intro b hb hmem
        rcases List.mem_cons.1 hmem with h | h
        · exact hc h.symm
        · exact hb h
      rw [splitLines_cons_ne c rest hc] at hl
      cases hsp : splitLines rest with
      | nil =>
        rw [hsp] at hl
        simp only [List.mem_singleton] at hl
        subst hl
        exact ⟨[c], hnl [] (by simp), Or.inr ⟨rfl, by simp⟩⟩
      | cons l0 ls =>
        rw [hsp] at hl
        simp only [List.mem_cons] at hl
        rcases hl with rfl | hl
        · obtain ⟨b, hb, hcase⟩ := ih l0 (by simp [hsp])
          rcases hcase with h1 | ⟨h1, _⟩
          · exact ⟨c :: b, hnl b hb, Or.inl (by rw [h1]; rfl)⟩
          · exact ⟨c :: b, hnl b hb, Or.inr ⟨by rw [h1], by simp⟩⟩
        · exact ih l (by simp [hsp, hl])

/-- Splitting a newline-free word followed by a newline and further
content yields that newline-terminated word as the first line. -/
theorem splitLines_append (w t : List Char) (hw : ¬ '\n' ∈ w) :
    splitLines (w ++ '\n' :: t) = (w ++ ['\n']) :: splitLines t := by
  induction w with
  | nil => simp [splitLines]
  | cons c w ih =>
    have hc : c ≠ '\n' := fun h => hw (by simp [h])
    have hw' : ¬ '\n' ∈ w := fun h => hw (by simp [h])
    simp [splitLines, hc, ih hw']

/-- Splitting the concatenation of newline-terminated newline-free words
recovers exactly those lines. -/
theorem splitLines_flatten (ws : List (List Char)) (h : ∀ w ∈ ws, ¬ '\n' ∈ w) :
    splitLines ((ws.map (fun w => w ++ ['\n'])).flatten) = ws.map (fun w => w ++ ['\n']) := by
  induction ws with
  | nil => simp [splitLines]
  | cons w ws ih =>
    have hw : ¬ '\n' ∈ w := h w (by simp)
    have hrec := ih (fun x hx => h x (by simp [hx]))
    simp only [List.map_cons, List.flatten_cons, List.append_assoc, List.singleton_append]
    rw [splitLines_append _ _ hw, hrec]

/-- Appending a whitespace character does not change `rstrip`. -/
theorem rstrip_append_space (s : List Char) (c : Char) (hc : pyIsSpace c = true) :
    rstrip (s ++ [c]) = rstrip s := by
  simp [rstrip, List.reverse_append, List.dropWhile_cons, hc]

/-- Every character of `lstrip s` is a character of `s`. -/
theorem mem_of_mem_lstrip {a : Char} {s : List Char} (h : a ∈ lstrip s) : a ∈ s :=
  (List.dropWhile_sublist pyIsSpace).mem h

/-- Every character of `rstrip s` is a character of `s`. -/
theorem mem_of_mem_rstrip {a : Char} {s : List Char} (h : a ∈ rstrip s) : a ∈ s := by
  have h1 : a ∈ s.reverse.dropWhile pyIsSpace := by
    simpa [rstrip, List.mem_reverse] using h
  exact List.mem_reverse.1 (List.Sublist.mem h1 (List.dropWhile_sublist pyIsSpace))

/-- Every character of `pyStrip s` is a character of `s`. -/
theorem mem_of_mem_pyStrip {a : Char} {s : List Char} (h : a ∈ pyStrip s) : a ∈ s :=
  mem_of_mem_rstrip (mem_of_mem_lstrip h)

/-- Stripping a line produced by `splitLines` yields a newline-free
word. -/
theorem pyStrip_splitLines_no_newline {cs l : List Char} (hl : l ∈ splitLines cs) :
    ¬ '\n' ∈ pyStrip l := by
  obtain ⟨b, hb, hcase⟩ := splitLines_shape cs l hl
  intro hmem
  rcases hcase with rfl | ⟨rfl, _⟩
  · have : pyStrip (b ++ ['\n']) = pyStrip b := by
      simp [pyStrip, rstrip_append_space b '\n' (by simp [pyIsSpace])]
    rw [this] at hmem
    exact hb (mem_of_mem_pyStrip hmem)
  · exact hb (mem_of_mem_pyStrip hmem)

/-- The first surviving character of `dropWhile` fails the predicate. -/
theorem head?_dropWhile_not (p : Char → Bool) (l : List Char) :
    ∀ x, (l.dropWhile p).head? = some x → p x = false := by
  induction l with
  | nil => simp
  | cons a l ih =>
    by_cases h : p a
    · simpa [List.dropWhile_cons, h] using ih
    · intro x hx
      simp only [List.dropWhile_cons, h, if_neg] at hx
      simp only [Bool.false_eq_true, if_false, List.head?_cons, Option.some.injEq] at hx
      subst hx
      simpa using h

/-- The last character of `rstrip l` is never whitespace. -/
theorem getLast?_rstrip_not_space (l : List Char) :
    ∀ x, (rstrip l).getLast? = some x → pyIsSpace x = false := by
  intro x hx
  rw [rstrip, List.getLast?_reverse] at hx
  exact head?_dropWhile_not pyIsSpace l.reverse x hx

/-- `rstrip` fixes any list whose last character is not whitespace. -/
theorem rstrip_eq_self_of_getLast (l : List Char)
    (h : ∀ x, l.getLast? = some x → pyIsSpace x = false) : rstrip l = l := by
  cases hr : l.reverse with
  | nil =>
    have hl : l = [] := by simpa using congrArg List.reverse hr
    simp [hl, rstrip]
  | cons x xs =>
    have hx : l.getLast? = some x := by rw [← List.head?_reverse, hr, List.head?_cons]
    have hpx := h x hx
    have : (x :: xs).reverse = l := by rw [← hr, List.reverse_reverse]
    rw [rstrip, hr, List.dropWhile_cons, hpx]
    simpa using this

/-- A nonempty `lstrip` result has the same last character as the
original. -/
theorem getLast?_lstrip (l : List Char) (h : lstrip l ≠ []) :
    (lstrip l).getLast? = l.getLast? := by
  conv_rhs => rw [← List.takeWhile_append_dropWhile pyIsSpace l]
  rw [List.getLast?_append]
  cases hd : (l.dropWhile pyIsSpace).getLast? with
  | none =>
    exact absurd (List.getLast?_eq_none_iff.1 hd) h
  | some x => simp [lstrip, hd]

/-- `pyStrip` is idempotent. -/
theorem pyStrip_idem (s : List Char) : pyStrip (pyStrip s) = pyStrip s := by
  by_cases h : lstrip (rstrip s) = []
  · show lstrip (rstrip (lstrip (rstrip s))) = lstrip (rstrip s)
    rw [h]
    rfl
  · have hr : rstrip (lstrip (rstrip s)) = lstrip (rstrip s) := by
      apply rstrip_eq_self_of_getLast
      intro x hx
      rw [getLast?_lstrip _ h] at hx
      exact getLast?_rstrip_not_space s x hx
    show lstrip (rstrip (lstrip (rstrip s))) = lstrip (rstrip s)
    rw [hr, lstrip, lstrip, List.dropWhile_idempotent]

/-- Stripping a word with a newline appended is stripping the word. -/
theorem pyStrip_concat_newline (w : List Char) :
    pyStrip (w ++ ['\n']) = pyStrip w := by
  rw [pyStrip, pyStrip, rstrip_append_space w '\n' (by decide)]

/-- `chomp` removes exactly the appended newline. -/
theorem chomp_concat_newline (w : List Char) : chomp (w ++ ['\n']) = w := by
  simp [chomp, List.getLast?_concat, List.dropLast_concat]

/-- Every kept word of an input file is a fixed point of `pyStrip`,
contains no newline, and passes the keep-test. -/
theorem keptWords_props (blocked : List (List Char)) (c : List Char) :
    ∀ w ∈ keptWords blocked (splitLines c),
      pyStrip w = w ∧ ¬ '\n' ∈ w ∧ keep blocked w = true := by
  intro w hw
  rw [keptWords, List.mem_filter] at hw
  obtain ⟨hmem, hkeep⟩ := hw
  obtain ⟨l, hl, rfl⟩ := List.mem_map.1 hmem
  exact ⟨pyStrip_idem l, pyStrip_splitLines_no_newline hl, hkeep⟩

/-- Reading back a file made of newline-terminated newline-free words
yields those words as its lines. -/
theorem fileLines_flatten (ws : List (List Char)) (h : ∀ w ∈ ws, ¬ '\n' ∈ w) :
    fileLines ((ws.map (fun w => w ++ ['\n'])).flatten) = ws := by
  rw [fileLines, splitLines_flatten ws h, List.map_map]
  conv_rhs => rw [← List.map_id ws]
  apply List.map_congr_left
  intro w _
  exact chomp_concat_newline w

/-- The lines of the produced output file are exactly the kept words of
the input, in order. -/
theorem fileLines_out (c : List Char) (b : List (List Char)) :
    fileLines (filter_wordlist c b).out = keptWords b (splitLines c) := by
  have h := filter_wordlist_eq c b
  rw [h]
  show fileLines (outOf b (splitLines c)) = _
  rw [outOf]
  exact fileLines_flatten _ (fun w hw => (keptWords_props b c w hw).2.1)

/-- Splitting the produced output file recovers one newline-terminated
line per kept word. -/
theorem splitLines_out (c : List Char) (b : List (List Char)) :
    splitLines (filter_wordlist c b).out =
      (keptWords b (splitLines c)).map (fun w => w ++ ['\n']) := by
  have h := filter_wordlist_eq c b
  rw [h]
  show splitLines (outOf b (splitLines c)) = _
  rw [outOf]
  exact splitLines_flatten _ (fun w hw => (keptWords_props b c w hw).2.1)

/-- Stripping the lines of the output file gives back the kept words. -/
theorem mapStrip_out (c : List Char) (b : List (List Char)) :
    (splitLines (filter_wordlist c b).out).map pyStrip = keptWords b (splitLines c) := by
  rw [splitLines_out, List.map_map]
  conv_rhs => rw [← List.map_id (keptWords b (splitLines c))]
  apply List.map_congr_left
  intro w hw
  show pyStrip (w ++ ['\n']) = w
  rw [pyStrip_concat_newline]
  exact (keptWords_props b c w hw).1

/-! ### The loaded blocklist -/

/-- `Char.ofNat` of a valid code point round-trips through `toNat`. -/
theorem toNat_ofNat_valid (n : Nat) (h : Nat.isValidChar n) : (Char.ofNat n).toNat = n := by
  simp [Char.ofNat, h, Char.ofNatAux, Char.toNat]
  rfl

/-- ASCII lowercasing of characters is idempotent. -/
theorem toLower_toLower (c : Char) : Char.toLower (Char.toLower c) = Char.toLower c := by
  show (if (Char.toLower c).toNat ≥ 65 ∧ (Char.toLower c).toNat ≤ 90
        then Char.ofNat ((Char.toLower c).toNat + 32) else Char.toLower c) = Char.toLower c
  by_cases h : c.toNat ≥ 65 ∧ c.toNat ≤ 90
  · have hc : Char.toLower c = Char.ofNat (c.toNat + 32) := by
      show (if c.toNat ≥ 65 ∧ c.toNat ≤ 90 then Char.ofNat (c.toNat + 32) else c) = _
      rw [if_pos h]
    have hv : Nat.isValidChar (c.toNat + 32) := Or.inl (by omega)
    have ht : (Char.toLower c).toNat = c.toNat + 32 := by
      rw [hc]
      exact toNat_ofNat_valid _ hv
    rw [if_neg]
    rw [ht]
    omega
  · have hc : Char.toLower c = c := by
      show (if c.toNat ≥ 65 ∧ c.toNat ≤ 90 then Char.ofNat (c.toNat + 32) else c) = c
      rw [if_neg h]
    rw [hc, if_neg h]

/-- `pyLower` is idempotent. -/
theorem pyLower_idem (s : List Char) : pyLower (pyLower s) = pyLower s := by
  rw [pyLower, pyLower, List.map_map]
  apply List.map_congr_left
  intro c _
  exact toLower_toLower c

/-- Every member of a loaded blocklist is nonempty, lowercase, and free
of spaces. -/
theorem mem_load_blocklist {content w : List Char} (h : w ∈ load_blocklist content) :
    w ≠ [] ∧ pyLower w = w ∧ ¬ ' ' ∈ w := by
  rw [load_blocklist, List.mem_filterMap] at h
  obtain ⟨l, _, hf⟩ := h
  simp only at hf
  by_cases hc : pyLower (pyStrip l) ≠ [] ∧ ¬ ' ' ∈ pyLower (pyStrip l)
  · rw [if_pos hc, Option.some.injEq] at hf
    subst hf
    exact ⟨hc.1, pyLower_idem _, hc.2⟩
  · rw [if_neg hc] at hf
    exact absurd hf (by simp)

/-- The empty string is never in a loaded blocklist. -/
theorem nil_not_mem_load_blocklist (content : List Char) :
    ¬ [] ∈ load_blocklist content :=
  fun h => (mem_load_blocklist h).1 rfl

/-- Stripping a line of only whitespace leaves the empty word. -/
theorem pyStrip_all_space (l : List Char) (h : ∀ c ∈ l, pyIsSpace c = true) :
    pyStrip l = [] := by
  have hr : rstrip l = [] := by
    rw [rstrip, List.dropWhile_eq_nil_iff.2 (fun x hx => h x (List.mem_reverse.1 hx))]
    rfl
  rw [pyStrip, hr]
  rfl

/-- `chomp` never changes the stripped word of a line. -/
theorem pyStrip_chomp (l : List Char) : pyStrip (chomp l) = pyStrip l := by
  rw [chomp]
  by_cases h : l.getLast? = some '\n'
  · rw [if_pos h]
    have hne : l ≠ [] := by
      intro h0
      subst h0
      simp at h
    have hg : l.getLast hne = '\n' := by
      have := List.getLast?_eq_getLast l hne
      rw [this, Option.some.injEq] at h
      exact h
    conv_rhs => rw [← List.dropLast_append_getLast hne, hg, pyStrip_concat_newline]
  · rw [if_neg h]

/-! ### The claims -/

/-- C1: for every input wordlist and blocklist, every input word whose
lowercase form is not in the single-word blocklist set appears in the
output, unchanged, in its original relative position among the kept
words: the output file's lines are exactly the stripped input words
passing the keep-test, in input order. -/
theorem C1_kept_words_appear_in_order (content : List Char) (blocked : List (List Char)) :
    fileLines (filter_wordlist content blocked).out =
      ((splitLines content).map pyStrip).filter (keep blocked) :=
  fileLines_out content blocked

/-- C2: every input word whose lowercase form is in the blocklist set is
absent from the output file, is counted in removed-count, and is
appended, in its original casing and in input order, to the
removed-words sequence; in particular a blocklist entry "Apple" removes
the input entries "apple", "APPLE", and "Apple". -/
theorem C2_blocked_words_removed (content : List Char) (blocked : List (List Char)) :
    (filter_wordlist content blocked).removedWords =
        ((splitLines content).map pyStrip).filter (fun w => ! keep blocked w) ∧
    (filter_wordlist content blocked).removed =
        (((splitLines content).map pyStrip).filter (fun w => ! keep blocked w)).length ∧
    (∀ w, w ∈ (splitLines content).map pyStrip → pyLower w ∈ blocked →
        ¬ w ∈ fileLines (filter_wordlist content blocked).out) ∧
    (filter_wordlist (("apple\nAPPLE\nApple\n").data)
        (load_blocklist (("Apple\n").data))).out = [] ∧
    (filter_wordlist (("apple\nAPPLE\nApple\n").data)
        (load_blocklist (("Apple\n").data))).removedWords =
      [("apple").data, ("APPLE").data, ("Apple").data] := by
  refine ⟨?_, ?_, ?_, by decide, by decide⟩
  · rw [filter_wordlist_eq]
    rfl
  · rw [filter_wordlist_eq]
    rfl
  · intro w _ hw hmem
    rw [fileLines_out] at hmem
    have := (keptWords_props blocked content w hmem).2.2
    rw [keep, decide_eq_true_eq] at this
    exact this hw

/-- C2 witness: with blocklist {"cat"} and input "cat", the removed word
"cat" is absent from the output file. -/
theorem C2_blocked_words_removed_witness :
    ¬ ("cat").data ∈ fileLines (filter_wordlist (("cat\n").data) [("cat").data]).out :=
  (C2_blocked_words_removed (("cat\n").data) [("cat").data]).2.2.1
    (("cat").data) (by decide) (by decide)

/-- C3: the loader strips and lowercases each line, skips empty results
and entries containing a space, so the blocklist set holds only
non-empty, lowercase, space-free words; no string containing a space is
ever in the set, and a blocklist of "ball gag" removes neither "ball"
nor "gag". -/
theorem C3_blocklist_single_lowercase_words (content : List Char) :
    (∀ w ∈ load_blocklist content, w ≠ [] ∧ pyLower w = w ∧ ¬ ' ' ∈ w) ∧
    (∀ w : List Char, ' ' ∈ w → ¬ w ∈ load_blocklist content) ∧
    (filter_wordlist (("ball\ngag\n").data)
        (load_blocklist (("ball gag\n").data))).removed = 0 ∧
    (filter_wordlist (("ball\ngag\n").data)
        (load_blocklist (("ball gag\n").data))).out = ("ball\ngag\n").data := by
  refine ⟨fun w hw => mem_load_blocklist hw, ?_, by decide, by decide⟩
  intro w hsp hw
  exact (mem_load_blocklist hw).2.2 hsp

/-- C3 witness: with blocklist file "cat\nball gag\n", the word "cat" is
in the set and is a nonempty lowercase space-free word, and "ball gag"
is not in the set. -/
theorem C3_blocklist_single_lowercase_words_witness :
    (("cat").data ≠ [] ∧ pyLower (("cat").data) = ("cat").data ∧
      ¬ ' ' ∈ ("cat").data) ∧
    ¬ ("ball gag").data ∈ load_blocklist (("cat\nball gag\n").data) :=
  ⟨(C3_blocklist_single_lowercase_words (("cat\nball gag\n").data)).1
      (("cat").data) (by decide),
   (C3_blocklist_single_lowercase_words (("cat\nball gag\n").data)).2.1
      (("ball gag").data) (by decide)⟩

/-- C4 counterexample: on input "  dog\n" with an empty blocklist, no
word is removed, yet the output file's single line "dog" is not a line
of the input file, so the output lines are not a verbatim subsequence of
the input lines. -/
theorem C4_counterexample :
    ¬ (fileLines (filter_wordlist (("  dog\n").data) []).out).Sublist
        (fileLines (("  dog\n").data)) := by
  decide

/-- C4 (amended): the sequence of lines of the output file is a verbatim
subsequence of the sequence of stripped input lines (each input line
with leading and trailing whitespace removed), in the same relative
order. -/
theorem C4_output_sublist_of_stripped_input (content : List Char)
    (blocked : List (List Char)) :
    (fileLines (filter_wordlist content blocked).out).Sublist
      ((fileLines content).map pyStrip) := by
  rw [fileLines_out]
  have h1 : (fileLines content).map pyStrip = (splitLines content).map pyStrip := by
    rw [fileLines, List.map_map]
    apply List.map_congr_left
    intro l _
    exact pyStrip_chomp l
  rw [h1, keptWords]
  exact List.filter_sublist _

/-- C5 counterexample: on the input line "  dog" (with an empty
blocklist) the code writes "dog\n", not "  dog\n": the word is obtained
by stripping leading whitespace as well, so leading whitespace is not
preserved in the output. -/
theorem C5_counterexample :
    (filter_wordlist (("  dog\n").data) []).out ≠ ("  dog\n").data ∧
    (filter_wordlist (("  dog\n").data) []).out = ("dog\n").data := by
  decide

/-- C5 (amended): for every input line, the filter obtains the word by
stripping both leading and trailing whitespace from the line, and when
the word is kept it writes that stripped word, in its original casing,
with a newline appended; leading whitespace is not preserved. -/
theorem C5_word_is_stripped_both_sides (blocked : List (List Char)) (st : FilterResult)
    (line : List Char) (h : pyLower (pyStrip line) ∉ blocked) :
    filterStep blocked st line =
      { st with out := st.out ++ (pyStrip line ++ ['\n']), kept := st.kept + 1 } := by
  simp only [filterStep]
  rw [if_pos h]

/-- C5 witness: the loop step on the line "  dog\n" with an empty
blocklist writes exactly "dog\n". -/
theorem C5_word_is_stripped_both_sides_witness :
    filterStep [] ⟨[], 0, 0, []⟩ (("  dog\n").data) =
      { out := ("dog\n").data, kept := 1, removed := 0, removedWords := [] } := by
  rw [C5_word_is_stripped_both_sides [] ⟨[], 0, 0, []⟩ (("  dog\n").data) (by decide)]
  decide

/-- C6: kept-count plus removed-count equals the number of input lines,
and the number of lines of the output file equals kept-count. -/
theorem C6_counts_add_up (content : List Char) (blocked : List (List Char)) :
    (filter_wordlist content blocked).kept + (filter_wordlist content blocked).removed =
        (splitLines content).length ∧
    (splitLines (filter_wordlist content blocked).out).length =
        (filter_wordlist content blocked).kept := by
  constructor
  · rw [filter_wordlist_eq]
    show (keptWords blocked (splitLines content)).length +
        (removedWordsOf blocked (splitLines content)).length = _
    rw [keptWords, removedWordsOf,
      ← List.length_eq_length_filter_add (l := (splitLines content).map pyStrip) (keep blocked)]
    exact List.length_map _ _
  · rw [splitLines_out, List.length_map]
    conv_rhs => rw [filter_wordlist_eq]

/-- C7: filtering is idempotent: re-running the filter on the produced
output with the same blocklist removes nothing and reproduces the
output byte for byte. -/
theorem C7_filter_idempotent (content : List Char) (blocked : List (List Char)) :
    (filter_wordlist (filter_wordlist content blocked).out blocked).removed = 0 ∧
    (filter_wordlist (filter_wordlist content blocked).out blocked).out =
      (filter_wordlist content blocked).out := by
  have hkeep : ∀ w ∈ keptWords blocked (splitLines content), keep blocked w = true :=
    fun w hw => (keptWords_props blocked content w hw).2.2
  have hkept : keptWords blocked (splitLines (filter_wordlist content blocked).out) =
      keptWords blocked (splitLines content) := by
    rw [keptWords, mapStrip_out]
    exact List.filter_eq_self.2 hkeep
  have hrem : removedWordsOf blocked (splitLines (filter_wordlist content blocked).out) = [] := by
    rw [removedWordsOf, mapStrip_out, List.filter_eq_nil_iff]
    intro w hw
    simp [hkeep w hw]
  constructor
  · rw [filter_wordlist_eq ((filter_wordlist content blocked).out) blocked]
    show (removedWordsOf blocked (splitLines (filter_wordlist content blocked).out)).length = 0
    rw [hrem]
    rfl
  · rw [filter_wordlist_eq ((filter_wordlist content blocked).out) blocked]
    show outOf blocked (splitLines (filter_wordlist content blocked).out) = _
    rw [outOf, hkept]
    conv_rhs => rw [filter_wordlist_eq]
    rfl

/-- C8: on the concrete run with blocklist file lines "cat" and
"ball gag" and input lines "cat", "Cat", "ball gag", "ball", "dog", the
output lines are "ball gag", "ball", "dog", the removed-words sequence
is "cat", "Cat", kept-count is 3 and removed-count is 2. -/
theorem C8_concrete_scenario :
    fileLines (filter_wordlist (("cat\nCat\nball gag\nball\ndog\n").data)
        (load_blocklist (("cat\nball gag\n").data))).out =
      [("ball gag").data, ("ball").data, ("dog").data] ∧
    (filter_wordlist (("cat\nCat\nball gag\nball\ndog\n").data)
        (load_blocklist (("cat\nball gag\n").data))).removedWords =
      [("cat").data, ("Cat").data] ∧
    (filter_wordlist (("cat\nCat\nball gag\nball\ndog\n").data)
        (load_blocklist (("cat\nball gag\n").data))).kept = 3 ∧
    (filter_wordlist (("cat\nCat\nball gag\nball\ndog\n").data)
        (load_blocklist (("cat\nball gag\n").data))).removed = 2 := by
  decide

/-- C9: every line of the output file is the stripped form (leading and
trailing whitespace removed) of some input line, and has itself no
leading or trailing whitespace. -/
theorem C9_output_lines_have_no_surrounding_space (content : List Char)
    (blocked : List (List Char)) :
    ∀ l ∈ fileLines (filter_wordlist content blocked).out,
      (∃ line ∈ splitLines content, l = pyStrip line) ∧ pyStrip l = l := by
  intro l hl
  rw [fileLines_out] at hl
  have hfix := (keptWords_props blocked content l hl).1
  rw [keptWords, List.mem_filter] at hl
  obtain ⟨line, hline, heq⟩ := List.mem_map.1 hl.1
  exact ⟨⟨line, hline, heq.symm⟩, hfix⟩

/-- C9 witness: the single output line "dog" of the run on "  dog\n"
with an empty blocklist is a stripped input line and has no surrounding
whitespace. -/
theorem C9_output_lines_have_no_surrounding_space_witness :
    (∃ line ∈ splitLines (("  dog\n").data), ("dog").data = pyStrip line) ∧
    pyStrip (("dog").data) = ("dog").data :=
  C9_output_lines_have_no_surrounding_space (("  dog\n").data) []
    (("dog").data) (by decide)

/-- C10: the empty string is never in a loaded blocklist, so an empty or
all-whitespace input line is kept — the loop writes a bare newline (an
empty output line), increments kept-count, and leaves removed-count and
the removed words untouched. -/
theorem C10_empty_lines_kept (blContent : List Char) (st : FilterResult)
    (line : List Char) (h : ∀ c ∈ line, pyIsSpace c = true) :
    ¬ [] ∈ load_blocklist blContent ∧
    filterStep (load_blocklist blContent) st line =
      { st with out := st.out ++ ['\n'], kept := st.kept + 1 } := by
  refine ⟨nil_not_mem_load_blocklist blContent, ?_⟩
  have hs : pyStrip line = [] := pyStrip_all_space line h
  simp only [filterStep, hs]
  rw [if_pos]
  · simp
  · show pyLower [] ∉ load_blocklist blContent
    exact nil_not_mem_load_blocklist blContent

/-- C10 witness: on the all-whitespace line "  \n" with the blocklist
loaded from "cat\n", the loop writes an empty line and keeps it. -/
theorem C10_empty_lines_kept_witness :
    ¬ [] ∈ load_blocklist (("cat\n").data) ∧
    filterStep (load_blocklist (("cat\n").data)) ⟨[], 0, 0, []⟩ (("  \n").data) =
      { out := ['\n'], kept := 1, removed := 0, removedWords := [] } :=
  C10_empty_lines_kept (("cat\n").data) ⟨[], 0, 0, []⟩ (("  \n").data) (by decide)

end OrchardOfLetters
